import Mathlib

/-!
Verification of the hunk-parsing, patch-reconstruction, interactive
selection, documentation-patch, and LLM-call logic of
src/llm_git_commits/main.py (llm-git-commits).

Python strings are embedded as Lean String (or List Char where character
level scanning is needed); the external collaborators (the git CLI, the
HTTP LLM endpoint, the interactive operator, the JSON decoder of the
standard library) are passed in as explicit arguments, so every function
here is a pure, executable translation of the corresponding Python code.
-/

/-- Record produced by GitCommitTool.get_file_hunks (main.py:247-277):
the dict with keys header, content, filepath. -/
structure Hunk where
  header : String
  content : String
  filepath : String
deriving DecidableEq, Repr

/-- Embeds the Python test line.startswith(two at-signs) used at
main.py:258: the first two characters are both the at-sign. -/
def isHunkHeader (line : String) : Bool :=
  match line.data with
  | c1 :: c2 :: _ => c1 = '@' && c2 = '@'
  | _ => false

/-- Embeds the Python test line.startswith on the plus, minus, space
tuple used at main.py:267: the first character is one of the three. -/
def isBodyLine (line : String) : Bool :=
  match line.data with
  | c :: _ => c = '+' || c = '-' || c = ' '
  | [] => false

/-- Embeds Python str.split on a single newline character: every newline
separates fields, the empty string splits to one empty field. -/
def splitNl : List Char → List (List Char)
  | [] => [[]]
  | c :: rest =>
      if c = '\n' then [] :: splitNl rest
      else
        match splitNl rest with
        | [] => [[c]]
        | l :: ls => (c :: l) :: ls

/-- Line decomposition of a diff text, as diff.split of a newline does at
main.py:257. -/
def splitLines (s : String) : List String :=
  (splitNl s.data).map String.mk

/-- Embeds the Python newline.join used at main.py:262 and 273. -/
def joinStrNl : List String → String
  | [] => ""
  | [x] => x
  | x :: y :: rest => x ++ "\n" ++ joinStrNl (y :: rest)

/-- Flush of the in-progress hunk performed at main.py:259-264 and
270-275: a record is emitted only when a header is open and the
accumulated body is non-empty. -/
def flushHunk (filepath : String) (hdr : Option String) (current : List String) : List Hunk :=
  match hdr with
  | some h => if current.isEmpty then [] else [⟨h, joinStrNl current, filepath⟩]
  | none => []

/-- Scan loop of GitCommitTool.get_file_hunks (main.py:257-275): a hunk
marker line flushes the open hunk and opens a new one; a body line is
accumulated only while a hunk is open; every other line is dropped. -/
def getFileHunksAux (filepath : String) : Option String → List String → List String → List Hunk
  | hdr, current, [] => flushHunk filepath hdr current
  | hdr, current, line :: rest =>
      if isHunkHeader line then
        flushHunk filepath hdr current ++ getFileHunksAux filepath (some line) [] rest
      else if isBodyLine line && hdr.isSome then
        getFileHunksAux filepath hdr (current ++ [line]) rest
      else
        getFileHunksAux filepath hdr current rest

/-- GitCommitTool.get_file_hunks (main.py:247-277). The diff text is the
output of git diff for the file; the subprocess call is external, so the
text is passed as the second argument. An empty diff returns no hunks. -/
def get_file_hunks (filepath diff : String) : List Hunk :=
  if diff = "" then []
  else getFileHunksAux filepath none [] (splitLines diff)

/-- Predicate on the lines after a hunk marker: some body line occurs
before the next marker line or the end of input, so the marker's hunk is
flushed with a non-empty body. -/
def hasBodyBefore : List String → Bool
  | [] => false
  | line :: rest =>
      if isHunkHeader line then false
      else if isBodyLine line then true
      else hasBodyBefore rest

/-- Marker lines of the input that are followed by at least one body line
before the next marker or the end of input, in input order. -/
def markersWithBody : List String → List String
  | [] => []
  | line :: rest =>
      if isHunkHeader line then
        (if hasBodyBefore rest then [line] else []) ++ markersWithBody rest
      else markersWithBody rest

/-- Well-formedness of a unified-diff line sequence as far as the parser
is concerned: every hunk marker line is followed by at least one body
line before the next marker or the end of input. Every diff produced by
the external diff tool satisfies this, since a hunk always carries at
least one context, addition or deletion line. -/
def markersFollowed : List String → Bool
  | [] => true
  | line :: rest =>
      if isHunkHeader line then hasBodyBefore rest && markersFollowed rest
      else markersFollowed rest

/-- Insertion of one hunk into the insertion-ordered grouping dict built
at main.py:336-341: the hunk is appended to the list of the first entry
with its file path, or a new entry is appended at the end. -/
def insertHunk : List (String × List Hunk) → Hunk → List (String × List Hunk)
  | [], h => [(h.filepath, [h])]
  | (fp, hs) :: rest, h =>
      if fp = h.filepath then (fp, hs ++ [h]) :: rest
      else (fp, hs) :: insertHunk rest h

/-- Grouping of hunks by file path performed at main.py:336-341; a Python
dict preserves insertion order, embedded as an association list. -/
def groupByFile (hunks : List Hunk) : List (String × List Hunk) :=
  hunks.foldl insertHunk []

/-- Patch document synthesized for one file at main.py:346-353: the
file-pair header with the dummy index line, followed by each kept hunk's
header line and body, verbatim. -/
def patchDocument (filepath : String) (file_hunks : List Hunk) : String :=
  "diff --git a/" ++ filepath ++ " b/" ++ filepath ++ "\n"
    ++ "index 0000000..1111111 100644\n"
    ++ "--- a/" ++ filepath ++ "\n"
    ++ "+++ b/" ++ filepath ++ "\n"
    ++ String.join (file_hunks.map (fun h => h.header ++ "\n" ++ h.content ++ "\n"))

/-- Per-file loop of GitCommitTool.stage_hunks (main.py:344-372). The
external git apply --cached call is the applyOk oracle. The result is
the trace of attempted patch documents with their apply outcome, and the
return value: a failed apply stops the iteration at once (the remaining
files are never attempted) and reports failure. -/
def stageLoop (applyOk : String → Bool) : List (String × List Hunk) → List (String × Bool) × Bool
  | [] => ([], true)
  | (fp, fhs) :: rest =>
      if applyOk (patchDocument fp fhs) then
        ((patchDocument fp fhs, true) :: (stageLoop applyOk rest).1, (stageLoop applyOk rest).2)
      else ([(patchDocument fp fhs, false)], false)

/-- GitCommitTool.stage_hunks (main.py:330-372): an empty selection
returns False immediately; otherwise the hunks are grouped by file and
one patch per file is built and applied. -/
def stage_hunks (applyOk : String → Bool) (hunks : List Hunk) : List (String × Bool) × Bool :=
  if hunks.isEmpty then ([], false)
  else stageLoop applyOk (groupByFile hunks)

/-- First-match lookup in the grouping association list. -/
def lookupGroup (fp : String) : List (String × List Hunk) → List Hunk
  | [] => []
  | (k, v) :: rest => if k = fp then v else lookupGroup fp rest

/-- Operator keystroke at the per-hunk prompt of
GitCommitTool.interactive_stage_hunks (main.py:307-326): y, n, q, d, or
any other input. -/
inductive Choice where
  | y
  | n
  | q
  | d
  | other
deriving DecidableEq, Repr

/-- Effective decision produced by the inner while loop: keep the hunk,
skip it, or abort the scan of the current file. -/
inductive Decision where
  | keep
  | skip
  | abort
deriving DecidableEq, Repr

/-- Inner while loop at main.py:307-326: d (show full diff) and invalid
input re-prompt and consume the next keystroke; y, n, q decide. Running
out of operator input models the blocking read failing (EOFError), which
the code does not catch, embedded as none. -/
def promptHunk : List Choice → Option (Decision × List Choice)
  | [] => none
  | Choice.y :: rest => some (Decision.keep, rest)
  | Choice.n :: rest => some (Decision.skip, rest)
  | Choice.q :: rest => some (Decision.abort, rest)
  | Choice.d :: rest => promptHunk rest
  | Choice.other :: rest => promptHunk rest

/-- Hunk loop of GitCommitTool.interactive_stage_hunks (main.py:290-328):
keep appends the hunk and moves on, skip moves on, abort returns the
hunks selected so far for this file at once; none models an uncaught
EOFError escaping the function. -/
def selectLoop : List Hunk → List Hunk → List Choice → Option (List Hunk × List Choice)
  | acc, [], input => some (acc, input)
  | acc, h :: hs, input =>
      match promptHunk input with
      | none => none
      | some (Decision.keep, rest) => selectLoop (acc ++ [h]) hs rest
      | some (Decision.skip, rest) => selectLoop acc hs rest
      | some (Decision.abort, rest) => some (acc, rest)

/-- GitCommitTool.interactive_stage_hunks (main.py:279-328) for one file,
given the file's parsed hunks (the get_file_hunks result) and the
operator input stream; returns the selected hunks and the unconsumed
input. -/
def interactive_stage_hunks (hunks : List Hunk) (input : List Choice) :
    Option (List Hunk × List Choice) :=
  selectLoop [] hunks input

/-- Interactive staging loop of main (main.py:860-863): for each modified
file in order, interactive_stage_hunks is called and its selection is
appended; the loop itself never stops early (only an uncaught exception,
modeled as none, ends it). Each file is represented by its parsed hunk
list. -/
def mainInteractiveLoop : List (List Hunk) → List Choice → Option (List Hunk)
  | [], _ => some []
  | hs :: files, input =>
      match interactive_stage_hunks hs input with
      | none => none
      | some (sel, input2) =>
          match mainInteractiveLoop files input2 with
          | none => none
          | some more => some (sel ++ more)

/-- Embeds the Python prefix test underlying substring search: pat read
at the front of s, character by character. -/
def beginsWith : List Char → List Char → Bool
  | [], _ => true
  | _ :: _, [] => false
  | p :: ps, c :: cs => p = c && beginsWith ps cs

/-- Embeds the Python membership test pat in s on strings: pat occurs as
a contiguous substring of s (the empty pattern always occurs). -/
def containsSub (pat : List Char) : List Char → Bool
  | [] => beginsWith pat []
  | c :: rest => beginsWith pat (c :: rest) || containsSub pat rest

/-- Embeds Python str.replace with an empty pattern: the replacement is
put before every character and once at the end. -/
def pyReplaceEmpty (repl : List Char) : List Char → List Char
  | [] => repl
  | c :: rest => repl ++ c :: pyReplaceEmpty repl rest

/-- Embeds Python str.replace with the non-empty pattern p :: ps: the
text is scanned left to right; at a match the replacement is emitted and
the matched characters are consumed, otherwise one character is kept. -/
def pyReplaceGo (p : Char) (ps repl : List Char) : List Char → List Char
  | [] => []
  | c :: rest =>
      if beginsWith (p :: ps) (c :: rest) then
        repl ++ pyReplaceGo p ps repl (rest.drop ps.length)
      else
        c :: pyReplaceGo p ps repl rest
termination_by l => l.length
decreasing_by
  · simp only [List.length_cons, List.length_drop]
    omega
  · simp only [List.length_cons]
    omega

/-- Embeds Python str.replace(pat, repl): every occurrence of pat in the
text is substituted by repl, scanning left to right. -/
def pyReplace (pat repl s : List Char) : List Char :=
  match pat with
  | [] => pyReplaceEmpty repl s
  | p :: ps => pyReplaceGo p ps repl s

/-- Embeds the Python newline join of the file's line list used at
main.py:642 (and the content join at main.py:638). -/
def joinNl : List (List Char) → List Char
  | [] => []
  | [x] => x
  | x :: y :: rest => x ++ '\n' :: joinNl (y :: rest)

/-- Embeds the line rebuilding at main.py:645: every split field but the
last gets its newline back. -/
def reNewline : List (List Char) → List (List Char)
  | [] => []
  | [x] => [x]
  | x :: y :: rest => (x ++ ['\n']) :: reNewline (y :: rest)

/-- Concatenation of the line list, which is the file content that
f.writelines at main.py:663 produces. -/
def concatAll : List (List Char) → List Char
  | [] => []
  | x :: rest => x ++ concatAll rest

/-- REPLACE branch of GitCommitTool.apply_doc_patches (main.py:640-645):
when the section identifier occurs in the newline-joined file content, a
literal text substitution of every occurrence is performed, the result is
re-split on newlines and the newlines are re-attached to every field but
the last; the modified flag is set only in that case. -/
def replaceStep (lines : List (List Char)) (sec content : List Char) :
    List (List Char) × Bool :=
  if containsSub sec (joinNl lines) then
    (reNewline (splitNl (pyReplace sec content (joinNl lines))), true)
  else (lines, false)

/-- INSERT_AFTER branch of GitCommitTool.apply_doc_patches
(main.py:647-652): the content (with a newline) is spliced immediately
after the first line containing the section identifier; the scan stops at
the first match. -/
def insertAfterStep (sec content : List Char) : List (List Char) → List (List Char) × Bool
  | [] => ([], false)
  | line :: rest =>
      if containsSub sec line then
        (line :: (content ++ ['\n']) :: rest, true)
      else
        ((insertAfterStep sec content rest).1.cons line, (insertAfterStep sec content rest).2)

/-- INSERT_BEFORE branch of GitCommitTool.apply_doc_patches
(main.py:653-658): the content (with a newline) is spliced immediately
before the first line containing the section identifier; the scan stops
at the first match. -/
def insertBeforeStep (sec content : List Char) : List (List Char) → List (List Char) × Bool
  | [] => ([], false)
  | line :: rest =>
      if containsSub sec line then
        ((content ++ ['\n']) :: line :: rest, true)
      else
        ((insertBeforeStep sec content rest).1.cons line, (insertBeforeStep sec content rest).2)

/-- Parsed doc-patch directive of GitCommitTool.apply_doc_patches: the
dict built at main.py:608-628 may lack the section or action key (the
apply loop skips such entries), and content defaults to the empty list. -/
structure DocPatch where
  sectionId : Option (List Char)
  action : Option (List Char)
  content : List (List Char)
deriving DecidableEq, Repr

/-- Apply loop body of GitCommitTool.apply_doc_patches (main.py:632-658):
an entry lacking section or action is skipped; REPLACE, INSERT_AFTER and
INSERT_BEFORE dispatch to their branches and may set the modified flag;
every other action, DELETE included, matches no branch and leaves the
state untouched. -/
def applyDirective (st : List (List Char) × Bool) (p : DocPatch) : List (List Char) × Bool :=
  match p.sectionId, p.action with
  | some sec, some act =>
      if act = "REPLACE".data then
        ((replaceStep st.1 sec (joinNl p.content)).1,
         st.2 || (replaceStep st.1 sec (joinNl p.content)).2)
      else if act = "INSERT_AFTER".data then
        ((insertAfterStep sec (joinNl p.content) st.1).1,
         st.2 || (insertAfterStep sec (joinNl p.content) st.1).2)
      else if act = "INSERT_BEFORE".data then
        ((insertBeforeStep sec (joinNl p.content) st.1).1,
         st.2 || (insertBeforeStep sec (joinNl p.content) st.1).2)
      else st
  | _, _ => st

/-- GitCommitTool.apply_doc_patches (main.py:600-669), apply phase: the
directives (already parsed from the PATCH_START blocks at
main.py:608-628) are applied in order to the file's line list; the file
is rewritten, and True returned, exactly when the modified flag was set;
otherwise the file is left untouched and False is returned. The first
component of the result is the file content after the call. -/
def apply_doc_patches (lines : List (List Char)) (patches : List DocPatch) :
    List (List Char) × Bool :=
  if (patches.foldl applyDirective (lines, false)).2 then
    ((patches.foldl applyDirective (lines, false)).1, true)
  else (lines, false)

/-- JSON value as produced by the standard-library JSON decoder used at
main.py:532 (json.loads). -/
inductive JVal where
  | jnull
  | jbool (b : Bool)
  | jnum (n : Int)
  | jstr (s : String)
  | jarr (elems : List JVal)
  | jobj (fields : List (String × JVal))
deriving Repr

/-- Empty suggestion set returned at main.py:535: the object with an
empty updates list and an empty suggestions list. -/
def emptySuggestions : JVal :=
  JVal.jobj [("updates", JVal.jarr []), ("suggestions", JVal.jarr [])]

/-- GitCommitTool._call_llm (main.py:172-229), with the HTTP transport as
an explicit argument: a successful transport returns the extracted reply
text unchanged; any transport or API failure is re-raised as an error
naming the provider and the triggering exception, with no retry. -/
def call_llm (providerName : String) (transport : Except String String) :
    Except String String :=
  match transport with
  | Except.ok reply => Except.ok reply
  | Except.error e =>
      Except.error ("LLM API call failed for " ++ providerName ++ ": " ++ e)

/-- Whitespace stripped by Python str.strip: space, tab, newline,
carriage return, vertical tab, form feed. -/
def isPySpace (c : Char) : Bool :=
  c = ' ' || c = '\t' || c = '\n' || c = '\r' || c = '\x0b' || c = '\x0c'

/-- Embeds Python str.strip(): leading and trailing whitespace removed. -/
def pyStrip (s : String) : String :=
  String.mk (((s.data.dropWhile isPySpace).reverse.dropWhile isPySpace).reverse)

/-- GitCommitTool.generate_commit_message (main.py:374-398): the model
reply for the staged diff prompt, stripped of leading and trailing
whitespace; an error from the model call propagates unchanged. -/
def generate_commit_message (providerName : String) (transport : Except String String) :
    Except String String :=
  match call_llm providerName transport with
  | Except.ok reply => Except.ok (pyStrip reply)
  | Except.error e => Except.error e

/-- GitCommitTool.suggest_doc_updates (main.py:470-535), reply handling:
the model reply is decoded by the jsonLoads oracle (none models a
JSONDecodeError); a decode failure yields the empty suggestion set with
the warning flag set (the printed warning at main.py:534), never an
error; an error from the model call itself propagates. -/
def suggest_doc_updates (jsonLoads : String → Option JVal) (providerName : String)
    (transport : Except String String) : Except String (JVal × Bool) :=
  match call_llm providerName transport with
  | Except.error e => Except.error e
  | Except.ok response =>
      match jsonLoads response with
      | some j => Except.ok (j, false)
      | none => Except.ok (emptySuggestions, true)

theorem isBodyLine_ne_header (line : String) (h : isBodyLine line = true) :
    isHunkHeader line = false := by
  unfold isBodyLine at h
  unfold isHunkHeader
  match hline : line.data with
  | [] => rfl
  | [c] => rfl
  | c1 :: c2 :: rest =>
      rw [hline] at h
      simp only [Bool.or_eq_true, decide_eq_true_eq] at h
      rcases h with (h | h) | h <;> subst h <;> simp

theorem getFileHunksAux_headers (fp : String) (rest : List String) :
    ∀ (hdr : Option String) (current : List String),
      (getFileHunksAux fp hdr current rest).map Hunk.header
        = (match hdr with
           | some h => if !current.isEmpty || hasBodyBefore rest then [h] else []
           | none => []) ++ markersWithBody rest := by
  induction rest with
  | nil =>
      intro hdr current
      cases hdr with
      | none => simp [getFileHunksAux, flushHunk, markersWithBody]
      | some h =>
          simp only [getFileHunksAux, flushHunk, markersWithBody, hasBodyBefore,
            Bool.or_false, List.append_nil]
          by_cases hc : current.isEmpty <;> simp [hc]
  | cons line tail ih =>
      intro hdr current
      by_cases hhd : isHunkHeader line = true
      · have hnb : isBodyLine line = false := by
          cases hb : isBodyLine line with
          | false => rfl
          | true => rw [isBodyLine_ne_header line hb] at hhd; cases hhd
        simp only [getFileHunksAux, hhd, if_true, List.map_append, ih]
        cases hdr with
        | none =>
            simp [flushHunk, markersWithBody, hasBodyBefore, hhd]
        | some h =>
            simp only [flushHunk, markersWithBody, hasBodyBefore, hhd, if_true]
            by_cases hc : current.isEmpty <;> simp [hc, List.append_assoc]
      · have hhd' : isHunkHeader line = false := by
          cases hb : isHunkHeader line with
          | false => rfl
          | true => exact absurd hb hhd
        by_cases hbody : isBodyLine line = true
        · cases hdr with
          | none =>
              simp [getFileHunksAux, hhd', hbody, ih, markersWithBody]
          | some h =>
              simp only [getFileHunksAux, hhd', Bool.false_eq_true, if_false, hbody,
                Option.isSome_some, Bool.and_true, Bool.and_self, if_true, ih]
              simp [markersWithBody, hasBodyBefore, hhd', hbody]
        · have hbody' : isBodyLine line = false := by
            cases hb : isBodyLine line with
            | false => rfl
            | true => exact absurd hb hbody
          cases hdr with
          | none =>
              simp [getFileHunksAux, hhd', hbody', ih, markersWithBody]
          | some h =>
              simp only [getFileHunksAux, hhd', Bool.false_eq_true, if_false, hbody',
                Option.isSome_some, Bool.false_and, ih]
              simp [markersWithBody, hasBodyBefore, hhd', hbody']

theorem markersWithBody_of_wellformed (lines : List String)
    (h : markersFollowed lines = true) :
    markersWithBody lines = lines.filter isHunkHeader := by
  induction lines with
  | nil => rfl
  | cons line rest ih =>
      by_cases hhd : isHunkHeader line = true
      · unfold markersFollowed at h
        rw [hhd] at h
        simp only [if_true] at h
        rw [Bool.and_eq_true] at h
        obtain ⟨hb, hrest⟩ := h
        simp [markersWithBody, hhd, hb, List.filter_cons, ih hrest]
      · have hhd' : isHunkHeader line = false := Bool.eq_false_iff.mpr hhd
        unfold markersFollowed at h
        rw [hhd'] at h
        simp only [Bool.false_eq_true, if_false] at h
        simp [markersWithBody, hhd', List.filter_cons, ih h]

theorem splitLines_empty : splitLines "" = [""] := rfl

theorem isHunkHeader_empty : isHunkHeader "" = false := rfl

/-- C1: for every well-formed unified-diff text for one file containing N
hunk marker lines, get_file_hunks returns exactly N hunk records, in the
original order of the markers, and the i-th record's header equals the
i-th marker line of the input. Well-formedness is the markersFollowed
predicate: every marker line is followed by at least one body line
before the next marker or the end of the text. -/
theorem get_file_hunks_wellformed_headers (filepath diff : String)
    (hwf : markersFollowed (splitLines diff) = true) :
    (get_file_hunks filepath diff).map Hunk.header
        = (splitLines diff).filter isHunkHeader
      ∧ (get_file_hunks filepath diff).length
        = ((splitLines diff).filter isHunkHeader).length := by
  have hmain : (get_file_hunks filepath diff).map Hunk.header
      = (splitLines diff).filter isHunkHeader := by
    by_cases hd : diff = ""
    · subst hd
      simp [get_file_hunks, splitLines_empty, List.filter_cons, isHunkHeader_empty]
    · unfold get_file_hunks
      rw [if_neg hd]
      rw [getFileHunksAux_headers filepath (splitLines diff) none []]
      simpa using markersWithBody_of_wellformed (splitLines diff) hwf
  refine ⟨hmain, ?_⟩
  calc (get_file_hunks filepath diff).length
      = ((get_file_hunks filepath diff).map Hunk.header).length := (List.length_map _ _).symm
    _ = ((splitLines diff).filter isHunkHeader).length := by rw [hmain]

theorem string_data_append (a b : String) : (a ++ b).data = a.data ++ b.data := by
  cases a
  cases b
  rfl

theorem isBodyLine_ne_empty (l : String) (h : isBodyLine l = true) : l.data ≠ [] := by
  intro hnil
  unfold isBodyLine at h
  rw [hnil] at h
  cases h

theorem joinStrNl_ne_empty (x : String) (xs : List String) (hx : x.data ≠ []) :
    joinStrNl (x :: xs) ≠ "" := by
  intro hcontra
  have hdata : (joinStrNl (x :: xs)).data = [] := by rw [hcontra]
  cases xs with
  | nil => exact hx hdata
  | cons y ys =>
      rw [show joinStrNl (x :: y :: ys) = x ++ "\n" ++ joinStrNl (y :: ys) from rfl] at hdata
      rw [string_data_append, string_data_append] at hdata
      rw [List.append_assoc] at hdata
      rcases List.append_eq_nil.mp hdata with ⟨hx', -⟩
      exact hx hx'

theorem flushHunk_content (fp : String) (hdr : Option String) (current : List String)
    (hcur : ∀ l ∈ current, isBodyLine l = true) :
    ∀ h ∈ flushHunk fp hdr current, h.content ≠ "" := by
  intro h hmem
  cases hdr with
  | none => simp [flushHunk] at hmem
  | some hd =>
      have heq : flushHunk fp (some hd) current
          = if current.isEmpty then [] else [⟨hd, joinStrNl current, fp⟩] := rfl
      rw [heq] at hmem
      by_cases hc : current.isEmpty = true
      · rw [if_pos hc] at hmem; cases hmem
      · rw [if_neg hc] at hmem
        rcases List.mem_singleton.mp hmem with rfl
        cases current with
        | nil => exact absurd rfl hc
        | cons x xs =>
            exact joinStrNl_ne_empty x xs
              (isBodyLine_ne_empty x (hcur x (List.mem_cons_self x xs)))

theorem getFileHunksAux_content (fp : String) (rest : List String) :
    ∀ (hdr : Option String) (current : List String),
      (∀ l ∈ current, isBodyLine l = true) →
      ∀ h ∈ getFileHunksAux fp hdr current rest, h.content ≠ "" := by
  induction rest with
  | nil =>
      intro hdr current hcur h hmem
      exact flushHunk_content fp hdr current hcur h hmem
  | cons line tail ih =>
      intro hdr current hcur h hmem
      by_cases hhd : isHunkHeader line = true
      · rw [show getFileHunksAux fp hdr current (line :: tail)
            = flushHunk fp hdr current ++ getFileHunksAux fp (some line) [] tail by
              simp [getFileHunksAux, hhd]] at hmem
        rcases List.mem_append.mp hmem with hmem | hmem
        · exact flushHunk_content fp hdr current hcur h hmem
        · exact ih (some line) [] (by intro l hl; cases hl) h hmem
      · have hhd' : isHunkHeader line = false := Bool.eq_false_iff.mpr hhd
        by_cases hbody : (isBodyLine line && hdr.isSome) = true
        · rw [show getFileHunksAux fp hdr current (line :: tail)
              = getFileHunksAux fp hdr (current ++ [line]) tail by
                simp [getFileHunksAux, hhd', hbody]] at hmem
          refine ih hdr (current ++ [line]) ?_ h hmem
          intro l hl
          rcases List.mem_append.mp hl with hl | hl
          · exact hcur l hl
          · rcases List.mem_singleton.mp hl with rfl
            exact (Bool.and_eq_true _ _ ▸ hbody).1
        · have hbody' : (isBodyLine line && hdr.isSome) = false := Bool.eq_false_iff.mpr hbody
          rw [show getFileHunksAux fp hdr current (line :: tail)
              = getFileHunksAux fp hdr current tail by
                simp [getFileHunksAux, hhd', hbody']] at hmem
          exact ih hdr current hcur h hmem

/-- C10: for every input diff text, well-formed or not, every hunk record
returned by get_file_hunks has a non-empty body, and the headers of the
returned records are exactly the marker lines that are followed by at
least one body line before the next marker or the end of input; a marker
with no such body line produces no record at all. -/
theorem get_file_hunks_nonempty_bodies (filepath diff : String) :
    (∀ h ∈ get_file_hunks filepath diff, h.content ≠ "")
      ∧ (get_file_hunks filepath diff).map Hunk.header
        = markersWithBody (splitLines diff) := by
  constructor
  · by_cases hd : diff = ""
    · subst hd
      intro h hmem
      simp [get_file_hunks] at hmem
    · unfold get_file_hunks
      rw [if_neg hd]
      exact getFileHunksAux_content filepath (splitLines diff) none []
        (by intro l hl; cases hl)
  · by_cases hd : diff = ""
    · subst hd
      simp [get_file_hunks, splitLines_empty, markersWithBody, isHunkHeader_empty]
    · unfold get_file_hunks
      rw [if_neg hd]
      rw [getFileHunksAux_headers filepath (splitLines diff) none []]
      simp

/-- Witness: a diff whose first marker has no body line before the second
marker; only the second marker yields a record, and its body is the one
context line. -/
theorem get_file_hunks_nonempty_bodies_witness :
    ((∀ h ∈ get_file_hunks "f.txt" "@@ -1 +1 @@\n@@ -2 +2 @@\n x", h.content ≠ "")
      ∧ (get_file_hunks "f.txt" "@@ -1 +1 @@\n@@ -2 +2 @@\n x").map Hunk.header
        = markersWithBody (splitLines "@@ -1 +1 @@\n@@ -2 +2 @@\n x"))
    ∧ (get_file_hunks "f.txt" "@@ -1 +1 @@\n@@ -2 +2 @@\n x").map Hunk.header
        = ["@@ -2 +2 @@"] :=
  ⟨get_file_hunks_nonempty_bodies "f.txt" "@@ -1 +1 @@\n@@ -2 +2 @@\n x", by decide⟩

/-- Witness: the scenario diff of the spec, one marker followed by three
body lines, parses to records whose headers are exactly the marker. -/
theorem get_file_hunks_wellformed_headers_witness :
    markersFollowed (splitLines "@@ -1,2 +1,3 @@\n a\n+b\n c") = true
      ∧ ((get_file_hunks "x.txt" "@@ -1,2 +1,3 @@\n a\n+b\n c").map Hunk.header
          = (splitLines "@@ -1,2 +1,3 @@\n a\n+b\n c").filter isHunkHeader
        ∧ (get_file_hunks "x.txt" "@@ -1,2 +1,3 @@\n a\n+b\n c").length
          = ((splitLines "@@ -1,2 +1,3 @@\n a\n+b\n c").filter isHunkHeader).length) :=
  ⟨by decide, get_file_hunks_wellformed_headers "x.txt" "@@ -1,2 +1,3 @@\n a\n+b\n c" (by decide)⟩

theorem lookupGroup_insertHunk (fp : String) (acc : List (String × List Hunk)) (h : Hunk) :
    lookupGroup fp (insertHunk acc h)
      = if h.filepath = fp then lookupGroup fp acc ++ [h] else lookupGroup fp acc := by
  induction acc with
  | nil =>
      by_cases hfp : h.filepath = fp <;>
        simp [insertHunk, lookupGroup, hfp]
  | cons p rest ih =>
      obtain ⟨k, v⟩ := p
      have hstep : insertHunk ((k, v) :: rest) h
          = if k = h.filepath then (k, v ++ [h]) :: rest
            else (k, v) :: insertHunk rest h := rfl
      have hlook : ∀ (w : List Hunk) (tl : List (String × List Hunk)),
          lookupGroup fp ((k, w) :: tl) = if k = fp then w else lookupGroup fp tl :=
        fun w tl => rfl
      by_cases hk : k = h.filepath
      · rw [hstep, if_pos hk, hlook]
        by_cases hfp : k = fp
        · have hh : h.filepath = fp := hk.symm.trans hfp
          rw [if_pos hfp, if_pos hh, hlook, if_pos hfp]
        · have hh : ¬h.filepath = fp := fun hc => hfp (hk.trans hc)
          rw [if_neg hfp, if_neg hh, hlook, if_neg hfp]
      · rw [hstep, if_neg hk, hlook, ih]
        by_cases hfp : k = fp
        · have hh : ¬h.filepath = fp := fun hc => hk (hfp.trans hc.symm)
          rw [if_pos hfp, if_neg hh, hlook, if_pos hfp]
        · by_cases hh : h.filepath = fp
          · rw [if_neg hfp, if_pos hh, if_pos hh, hlook, if_neg hfp]
          · rw [if_neg hfp, if_neg hh, if_neg hh, hlook, if_neg hfp]

theorem lookupGroup_foldl (hunks : List Hunk) :
    ∀ (acc : List (String × List Hunk)) (fp : String),
      lookupGroup fp (hunks.foldl insertHunk acc)
        = lookupGroup fp acc ++ hunks.filter (fun h => h.filepath == fp) := by
  induction hunks with
  | nil => intro acc fp; simp
  | cons h t ih =>
      intro acc fp
      rw [List.foldl_cons, ih (insertHunk acc h) fp, lookupGroup_insertHunk]
      by_cases hfp : h.filepath = fp
      · simp [List.filter_cons, hfp]
      · simp [List.filter_cons, hfp]

theorem keys_insertHunk (acc : List (String × List Hunk)) (h : Hunk) :
    (insertHunk acc h).map Prod.fst
      = if h.filepath ∈ acc.map Prod.fst then acc.map Prod.fst
        else acc.map Prod.fst ++ [h.filepath] := by
  induction acc with
  | nil => simp [insertHunk]
  | cons p rest ih =>
      obtain ⟨k, v⟩ := p
      by_cases hk : k = h.filepath
      · subst hk
        simp [insertHunk]
      · have hne : ¬h.filepath = k := fun hc => hk hc.symm
        by_cases hmem : h.filepath ∈ rest.map Prod.fst <;>
          simp [insertHunk, hk, hne, hmem, ih]

theorem keys_nodup_foldl (hunks : List Hunk) :
    ∀ (acc : List (String × List Hunk)),
      (acc.map Prod.fst).Nodup → ((hunks.foldl insertHunk acc).map Prod.fst).Nodup := by
  induction hunks with
  | nil => intro acc hacc; simpa using hacc
  | cons h t ih =>
      intro acc hacc
      rw [List.foldl_cons]
      refine ih (insertHunk acc h) ?_
      rw [keys_insertHunk]
      by_cases hmem : h.filepath ∈ acc.map Prod.fst
      · simpa [hmem] using hacc
      · simp only [hmem, if_false]
        rw [List.nodup_append]
        refine ⟨hacc, List.nodup_singleton _, ?_⟩
        intro x hx hx'
        rcases List.mem_singleton.mp hx' with rfl
        exact hmem hx

theorem keys_mono_foldl (t : List Hunk) :
    ∀ (acc : List (String × List Hunk)) (k : String),
      k ∈ acc.map Prod.fst → k ∈ (t.foldl insertHunk acc).map Prod.fst := by
  induction t with
  | nil => intro acc k hk; simpa using hk
  | cons h t ih =>
      intro acc k hk
      rw [List.foldl_cons]
      refine ih (insertHunk acc h) k ?_
      rw [keys_insertHunk]
      by_cases hmem : h.filepath ∈ acc.map Prod.fst <;> simp [hmem, hk]

theorem mem_keys_foldl (hunks : List Hunk) :
    ∀ (acc : List (String × List Hunk)) (h : Hunk),
      h ∈ hunks → h.filepath ∈ (hunks.foldl insertHunk acc).map Prod.fst := by
  induction hunks with
  | nil => intro acc h hmem; cases hmem
  | cons hd t ih =>
      intro acc h hmem
      rcases List.mem_cons.mp hmem with rfl | hmem
      · rw [List.foldl_cons]
        refine keys_mono_foldl t (insertHunk acc h) h.filepath ?_
        rw [keys_insertHunk]
        by_cases hm : h.filepath ∈ acc.map Prod.fst <;> simp [hm]
      · rw [List.foldl_cons]
        exact ih (insertHunk acc hd) h hmem

theorem lookupGroup_of_mem (g : List (String × List Hunk))
    (hnd : (g.map Prod.fst).Nodup) :
    ∀ p ∈ g, lookupGroup p.1 g = p.2 := by
  induction g with
  | nil => intro p hp; cases hp
  | cons q rest ih =>
      intro p hp
      obtain ⟨k, v⟩ := q
      rcases List.mem_cons.mp hp with rfl | hp
      · simp [lookupGroup]
      · have hk : k ≠ p.1 := by
          intro hc
          rw [List.map_cons, List.nodup_cons] at hnd
          have hmem : p.1 ∈ rest.map Prod.fst := List.mem_map_of_mem Prod.fst hp
          rw [hc] at hnd
          exact hnd.1 hmem
        rw [show lookupGroup p.1 ((k, v) :: rest) = if k = p.1 then v else lookupGroup p.1 rest
          from rfl, if_neg hk]
        refine ih ?_ p hp
        rw [List.map_cons, List.nodup_cons] at hnd
        exact hnd.2

theorem stageLoop_all_ok (g : List (String × List Hunk)) :
    stageLoop (fun _ => true) g
      = (g.map (fun p => (patchDocument p.1 p.2, true)), true) := by
  induction g with
  | nil => rfl
  | cons p rest ih =>
      obtain ⟨fp, fhs⟩ := p
      simp [stageLoop, ih]

/-- C2: for every non-empty hunk selection, stage_hunks groups the hunks
by file path (one group per distinct file, every selected file present,
each group exactly that file's hunks in their original relative order)
and, when every apply succeeds, emits exactly one patch document per
group: the file-pair header followed by that file's hunks, verbatim. -/
theorem stage_hunks_groups_by_file (hunks : List Hunk) (hne : hunks ≠ []) :
    ((groupByFile hunks).map Prod.fst).Nodup
    ∧ (∀ h ∈ hunks, h.filepath ∈ (groupByFile hunks).map Prod.fst)
    ∧ (∀ p ∈ groupByFile hunks, p.2 = hunks.filter (fun h => h.filepath == p.1))
    ∧ (stage_hunks (fun _ => true) hunks).1
        = (groupByFile hunks).map (fun p => (patchDocument p.1 p.2, true))
    ∧ (stage_hunks (fun _ => true) hunks).2 = true := by
  have hnd : ((groupByFile hunks).map Prod.fst).Nodup :=
    keys_nodup_foldl hunks [] (by simp)
  refine ⟨hnd, ?_, ?_, ?_, ?_⟩
  · intro h hmem
    exact mem_keys_foldl hunks [] h hmem
  · intro p hp
    have hlook := lookupGroup_of_mem (groupByFile hunks) hnd p hp
    rw [show groupByFile hunks = hunks.foldl insertHunk [] from rfl,
      lookupGroup_foldl hunks [] p.1] at hlook
    simpa [lookupGroup] using hlook.symm
  · have hnemp : hunks.isEmpty = false := by
      cases hunks with
      | nil => exact absurd rfl hne
      | cons a b => rfl
    rw [stage_hunks, hnemp]
    simp [stageLoop_all_ok]
  · have hnemp : hunks.isEmpty = false := by
      cases hunks with
      | nil => exact absurd rfl hne
      | cons a b => rfl
    rw [stage_hunks, hnemp]
    simp [stageLoop_all_ok]

/-- Witness: the spec scenario of two files with one hunk each; grouping
produces two separate patch documents, each holding only its own file's
hunk. -/
theorem stage_hunks_groups_by_file_witness :
    ([⟨"@@ -1 +1 @@", "-a", "a.txt"⟩, ⟨"@@ -2 +2 @@", "+b", "b.txt"⟩] ≠ ([] : List Hunk))
    ∧ (((groupByFile [⟨"@@ -1 +1 @@", "-a", "a.txt"⟩, ⟨"@@ -2 +2 @@", "+b", "b.txt"⟩]).map
          Prod.fst).Nodup
      ∧ (∀ h ∈ [Hunk.mk "@@ -1 +1 @@" "-a" "a.txt", Hunk.mk "@@ -2 +2 @@" "+b" "b.txt"],
          h.filepath ∈ (groupByFile [⟨"@@ -1 +1 @@", "-a", "a.txt"⟩,
            ⟨"@@ -2 +2 @@", "+b", "b.txt"⟩]).map Prod.fst)
      ∧ (∀ p ∈ groupByFile [⟨"@@ -1 +1 @@", "-a", "a.txt"⟩, ⟨"@@ -2 +2 @@", "+b", "b.txt"⟩],
          p.2 = [Hunk.mk "@@ -1 +1 @@" "-a" "a.txt",
            Hunk.mk "@@ -2 +2 @@" "+b" "b.txt"].filter (fun h => h.filepath == p.1))
      ∧ (stage_hunks (fun _ => true) [⟨"@@ -1 +1 @@", "-a", "a.txt"⟩,
            ⟨"@@ -2 +2 @@", "+b", "b.txt"⟩]).1
          = (groupByFile [⟨"@@ -1 +1 @@", "-a", "a.txt"⟩, ⟨"@@ -2 +2 @@", "+b", "b.txt"⟩]).map
              (fun p => (patchDocument p.1 p.2, true))
      ∧ (stage_hunks (fun _ => true) [⟨"@@ -1 +1 @@", "-a", "a.txt"⟩,
            ⟨"@@ -2 +2 @@", "+b", "b.txt"⟩]).2 = true)
    ∧ groupByFile [⟨"@@ -1 +1 @@", "-a", "a.txt"⟩, ⟨"@@ -2 +2 @@", "+b", "b.txt"⟩]
        = [("a.txt", [⟨"@@ -1 +1 @@", "-a", "a.txt"⟩]), ("b.txt", [⟨"@@ -2 +2 @@", "+b", "b.txt"⟩])] :=
  ⟨by decide,
   stage_hunks_groups_by_file
     [⟨"@@ -1 +1 @@", "-a", "a.txt"⟩, ⟨"@@ -2 +2 @@", "+b", "b.txt"⟩] (by decide),
   by decide⟩

theorem stageLoop_failure (applyOk : String → Bool) (g : String × List Hunk)
    (gs₂ : List (String × List Hunk)) :
    ∀ (gs₁ : List (String × List Hunk)),
      (∀ p ∈ gs₁, applyOk (patchDocument p.1 p.2) = true) →
      applyOk (patchDocument g.1 g.2) = false →
      stageLoop applyOk (gs₁ ++ g :: gs₂)
        = (gs₁.map (fun p => (patchDocument p.1 p.2, true))
            ++ [(patchDocument g.1 g.2, false)], false) := by
  intro gs₁
  induction gs₁ with
  | nil =>
      intro hok hfail
      obtain ⟨fp, fhs⟩ := g
      simp [stageLoop, hfail]
  | cons p rest ih =>
      intro hok hfail
      obtain ⟨fp, fhs⟩ := p
      have hthis : applyOk (patchDocument fp fhs) = true :=
        hok (fp, fhs) (List.mem_cons_self _ _)
      have hrec := ih (fun q hq => hok q (List.mem_cons_of_mem _ hq)) hfail
      have hunf : stageLoop applyOk (((fp, fhs) :: rest) ++ g :: gs₂)
          = ((patchDocument fp fhs, true) :: (stageLoop applyOk (rest ++ g :: gs₂)).1,
             (stageLoop applyOk (rest ++ g :: gs₂)).2) := by
        rw [List.cons_append]
        rw [show stageLoop applyOk ((fp, fhs) :: (rest ++ g :: gs₂))
            = if applyOk (patchDocument fp fhs) then
                ((patchDocument fp fhs, true) :: (stageLoop applyOk (rest ++ g :: gs₂)).1,
                 (stageLoop applyOk (rest ++ g :: gs₂)).2)
              else ([(patchDocument fp fhs, false)], false) from rfl]
        rw [if_pos hthis]
      rw [hunf, hrec]
      simp

/-- C4: if the external apply fails for some file's patch during
stage_hunks, no later file's patch is attempted, stage_hunks returns
False, and every earlier file's patch in the same invocation stays
applied (its successful apply stands in the trace; there is no
rollback). -/
theorem stage_hunks_apply_failure_aborts (applyOk : String → Bool) (hunks : List Hunk)
    (gs₁ : List (String × List Hunk)) (g : String × List Hunk)
    (gs₂ : List (String × List Hunk))
    (hne : hunks ≠ [])
    (hgroup : groupByFile hunks = gs₁ ++ g :: gs₂)
    (hok : ∀ p ∈ gs₁, applyOk (patchDocument p.1 p.2) = true)
    (hfail : applyOk (patchDocument g.1 g.2) = false) :
    stage_hunks applyOk hunks
      = (gs₁.map (fun p => (patchDocument p.1 p.2, true))
          ++ [(patchDocument g.1 g.2, false)], false) := by
  have hnemp : hunks.isEmpty = false := by
    cases hunks with
    | nil => exact absurd rfl hne
    | cons a b => rfl
  rw [stage_hunks, hnemp]
  simp only [Bool.false_eq_true, if_false]
  rw [hgroup]
  exact stageLoop_failure applyOk g gs₂ gs₁ hok hfail

/-- Witness: two files; the apply oracle rejects the second file's patch.
The first file's patch is applied and stays applied, the second is
attempted and fails, no further file is attempted, and the call reports
failure. -/
theorem stage_hunks_apply_failure_aborts_witness :
    ([Hunk.mk "@@ -1 +1 @@" "-a" "a.txt", Hunk.mk "@@ -2 +2 @@" "+b" "b.txt"] ≠ ([] : List Hunk))
    ∧ (groupByFile [⟨"@@ -1 +1 @@", "-a", "a.txt"⟩, ⟨"@@ -2 +2 @@", "+b", "b.txt"⟩]
        = [("a.txt", [⟨"@@ -1 +1 @@", "-a", "a.txt"⟩])]
            ++ ("b.txt", [Hunk.mk "@@ -2 +2 @@" "+b" "b.txt"]) :: [])
    ∧ stage_hunks
        (fun p => !(p == patchDocument "b.txt" [⟨"@@ -2 +2 @@", "+b", "b.txt"⟩]))
        [⟨"@@ -1 +1 @@", "-a", "a.txt"⟩, ⟨"@@ -2 +2 @@", "+b", "b.txt"⟩]
      = ([("a.txt", [Hunk.mk "@@ -1 +1 @@" "-a" "a.txt"])].map
            (fun p => (patchDocument p.1 p.2, true))
          ++ [(patchDocument ("b.txt", [Hunk.mk "@@ -2 +2 @@" "+b" "b.txt"]).1
                ("b.txt", [Hunk.mk "@@ -2 +2 @@" "+b" "b.txt"]).2, false)], false) :=
  ⟨by decide, by decide,
   stage_hunks_apply_failure_aborts
     (fun p => !(p == patchDocument "b.txt" [⟨"@@ -2 +2 @@", "+b", "b.txt"⟩]))
     [⟨"@@ -1 +1 @@", "-a", "a.txt"⟩, ⟨"@@ -2 +2 @@", "+b", "b.txt"⟩]
     [("a.txt", [⟨"@@ -1 +1 @@", "-a", "a.txt"⟩])]
     ("b.txt", [⟨"@@ -2 +2 @@", "+b", "b.txt"⟩]) []
     (by decide) (by decide) (by decide) (by decide)⟩

/-- C3 counterexample: two files with one hunk each; the operator aborts
with q at the first file's first hunk, then keeps the second file's hunk
with y. The overall selection is the second file's hunk, not the empty
subset collected before the abort: the q did not stop the scan of the
remaining files, refuting the claim as stated. -/
theorem interactive_abort_continues_next_file_cex :
    mainInteractiveLoop
        [[⟨"@@ -1 +1 @@", "-a", "a.txt"⟩], [⟨"@@ -2 +2 @@", "+b", "b.txt"⟩]]
        [Choice.q, Choice.y]
      = some [⟨"@@ -2 +2 @@", "+b", "b.txt"⟩]
    ∧ some [Hunk.mk "@@ -2 +2 @@" "+b" "b.txt"] ≠ some ([] : List Hunk) := by
  constructor
  · rfl
  · decide

/-- C3 as amended: choosing abort (q) at a hunk prompt stops the scan of
the remaining hunks of the current file only, returning for that file
exactly the hunks kept before the abort; the overall interactive
selection then continues with the remaining files on the remaining
input. -/
theorem interactive_abort_current_file_only (acc : List Hunk) (h : Hunk) (hs : List Hunk)
    (files : List (List Hunk)) (input rest : List Choice)
    (habort : promptHunk input = some (Decision.abort, rest)) :
    selectLoop acc (h :: hs) input = some (acc, rest)
    ∧ mainInteractiveLoop ((h :: hs) :: files) input = mainInteractiveLoop files rest := by
  have hsel : ∀ (a : List Hunk), selectLoop a (h :: hs) input = some (a, rest) := by
    intro a
    rw [show selectLoop a (h :: hs) input
        = (match promptHunk input with
           | none => none
           | some (Decision.keep, r) => selectLoop (a ++ [h]) hs r
           | some (Decision.skip, r) => selectLoop a hs r
           | some (Decision.abort, r) => some (a, r)) from rfl, habort]
  refine ⟨hsel acc, ?_⟩
  rw [show mainInteractiveLoop ((h :: hs) :: files) input
      = (match interactive_stage_hunks (h :: hs) input with
         | none => none
         | some (sel, input2) =>
             match mainInteractiveLoop files input2 with
             | none => none
             | some more => some (sel ++ more)) from rfl]
  rw [show interactive_stage_hunks (h :: hs) input = selectLoop [] (h :: hs) input from rfl,
    hsel []]
  have hred : (match some (([] : List Hunk), rest) with
      | none => none
      | some (sel, input2) =>
          match mainInteractiveLoop files input2 with
          | none => none
          | some more => some (sel ++ more))
      = (match mainInteractiveLoop files rest with
         | none => none
         | some more => some ([] ++ more)) := rfl
  rw [hred]
  cases hm : mainInteractiveLoop files rest with
  | none => rfl
  | some more => simp

/-- Witness: aborting at the only hunk of the first file with hunks kept
so far for it being empty; the scan continues with the second file. -/
theorem interactive_abort_current_file_only_witness :
    promptHunk [Choice.d, Choice.q, Choice.y] = some (Decision.abort, [Choice.y])
    ∧ (selectLoop [] [⟨"@@ -1 +1 @@", "-a", "a.txt"⟩] [Choice.d, Choice.q, Choice.y]
        = some ([], [Choice.y])
      ∧ mainInteractiveLoop
          [[⟨"@@ -1 +1 @@", "-a", "a.txt"⟩], [⟨"@@ -2 +2 @@", "+b", "b.txt"⟩]]
          [Choice.d, Choice.q, Choice.y]
        = mainInteractiveLoop [[⟨"@@ -2 +2 @@", "+b", "b.txt"⟩]] [Choice.y]) :=
  ⟨by decide,
   interactive_abort_current_file_only [] ⟨"@@ -1 +1 @@", "-a", "a.txt"⟩ []
     [[⟨"@@ -2 +2 @@", "+b", "b.txt"⟩]] [Choice.d, Choice.q, Choice.y] [Choice.y]
     (by decide)⟩

theorem splitNl_ne_nil (t : List Char) : splitNl t ≠ [] := by
  cases t with
  | nil => simp [splitNl]
  | cons c rest =>
      unfold splitNl
      by_cases hc : c = '\n'
      · simp [hc]
      · rw [if_neg hc]
        cases splitNl rest <;> simp

theorem concat_reNewline_splitNl (t : List Char) :
    concatAll (reNewline (splitNl t)) = t := by
  induction t with
  | nil => rfl
  | cons c rest ih =>
      obtain ⟨l, ls, hls⟩ : ∃ l ls, splitNl rest = l :: ls := by
        cases h : splitNl rest with
        | nil => exact absurd h (splitNl_ne_nil rest)
        | cons l ls => exact ⟨l, ls, rfl⟩
      rw [hls] at ih
      by_cases hc : c = '\n'
      · subst hc
        rw [show splitNl ('\n' :: rest) = [] :: splitNl rest by simp [splitNl]]
        rw [hls]
        rw [show reNewline ([] :: l :: ls) = (([] : List Char) ++ ['\n']) :: reNewline (l :: ls)
          from rfl]
        rw [show concatAll ((([] : List Char) ++ ['\n']) :: reNewline (l :: ls))
            = (([] : List Char) ++ ['\n']) ++ concatAll (reNewline (l :: ls)) from rfl]
        rw [ih]
        simp
      · rw [show splitNl (c :: rest)
            = (match splitNl rest with
               | [] => [[c]]
               | l :: ls => (c :: l) :: ls) by simp [splitNl, hc]]
        rw [hls]
        cases ls with
        | nil =>
            simp only [reNewline, concatAll, List.append_nil] at ih ⊢
            rw [ih]
        | cons m ms =>
            rw [show reNewline ((c :: l) :: m :: ms)
                = ((c :: l) ++ ['\n']) :: reNewline (m :: ms) from rfl]
            rw [show concatAll (((c :: l) ++ ['\n']) :: reNewline (m :: ms))
                = ((c :: l) ++ ['\n']) ++ concatAll (reNewline (m :: ms)) from rfl]
            rw [show reNewline (l :: m :: ms) = (l ++ ['\n']) :: reNewline (m :: ms) from rfl]
              at ih
            rw [show concatAll ((l ++ ['\n']) :: reNewline (m :: ms))
                = (l ++ ['\n']) ++ concatAll (reNewline (m :: ms)) from rfl] at ih
            rw [List.cons_append, List.cons_append, ih]

/-- C6: a REPLACE directive whose section identifier occurs in the joined
file content substitutes its content for every occurrence of the
identifier in the whole joined content (the rebuilt line list
concatenates back to exactly the substituted text) and sets the modified
flag; when the identifier does not occur, the line list is unchanged and
the flag is not set. -/
theorem replace_directive_substitutes_all (lines : List (List Char)) (sec content : List Char) :
    (containsSub sec (joinNl lines) = true →
      (replaceStep lines sec content).2 = true
      ∧ concatAll (replaceStep lines sec content).1
        = pyReplace sec content (joinNl lines))
    ∧ (containsSub sec (joinNl lines) = false →
      replaceStep lines sec content = (lines, false)) := by
  constructor
  · intro hin
    unfold replaceStep
    rw [if_pos hin]
    exact ⟨rfl, concat_reNewline_splitNl (pyReplace sec content (joinNl lines))⟩
  · intro hout
    unfold replaceStep
    rw [if_neg (by rw [hout]; exact Bool.false_ne_true)]

/-- Witness: the file a, b with REPLACE of section a by X; the rebuilt
content is exactly the joined content with a substituted. -/
theorem replace_directive_substitutes_all_witness :
    containsSub ("a".data) (joinNl [("a".data), ("b".data)]) = true
    ∧ ((replaceStep [("a".data), ("b".data)] ("a".data) ("X".data)).2 = true
      ∧ concatAll (replaceStep [("a".data), ("b".data)] ("a".data) ("X".data)).1
        = pyReplace ("a".data) ("X".data) (joinNl [("a".data), ("b".data)])) :=
  ⟨by decide,
   (replace_directive_substitutes_all [("a".data), ("b".data)] ("a".data) ("X".data)).1
     (by decide)⟩

/-- C7: an INSERT_AFTER (INSERT_BEFORE) directive whose section
identifier occurs as a substring of a line splices its content
immediately after (before) only the first matching line; everything
after that line, including later matching lines, is unchanged. -/
theorem insert_directive_first_match_only (sec content : List Char)
    (pre : List (List Char)) (line : List Char) (post : List (List Char))
    (hpre : ∀ l ∈ pre, containsSub sec l = false)
    (hline : containsSub sec line = true) :
    insertAfterStep sec content (pre ++ line :: post)
        = (pre ++ line :: (content ++ ['\n']) :: post, true)
    ∧ insertBeforeStep sec content (pre ++ line :: post)
        = (pre ++ (content ++ ['\n']) :: line :: post, true) := by
  induction pre with
  | nil =>
      constructor
      · rw [List.nil_append]
        unfold insertAfterStep
        rw [if_pos hline]
        rfl
      · rw [List.nil_append]
        unfold insertBeforeStep
        rw [if_pos hline]
        rfl
  | cons p ps ih =>
      have hp : containsSub sec p = false := hpre p (List.mem_cons_self _ _)
      have hrest : ∀ l ∈ ps, containsSub sec l = false :=
        fun l hl => hpre l (List.mem_cons_of_mem _ hl)
      obtain ⟨iha, ihb⟩ := ih hrest
      constructor
      · rw [List.cons_append]
        unfold insertAfterStep
        rw [if_neg (by rw [hp]; exact Bool.false_ne_true), iha]
        simp
      · rw [List.cons_append]
        unfold insertBeforeStep
        rw [if_neg (by rw [hp]; exact Bool.false_ne_true), ihb]
        simp

/-- Witness: the spec scenario where the identifier sec matches two
lines; only the first match receives the spliced content, the second
matching line stays in place. -/
theorem insert_directive_first_match_only_witness :
    (∀ l ∈ [("xx".data)], containsSub ("sec".data) l = false)
    ∧ containsSub ("sec".data) ("sec one".data) = true
    ∧ (insertAfterStep ("sec".data) ("NEW".data)
          ([("xx".data)] ++ ("sec one".data) :: [("sec two".data)])
        = ([("xx".data)] ++ ("sec one".data) :: ("NEW".data ++ ['\n']) :: [("sec two".data)],
           true)
      ∧ insertBeforeStep ("sec".data) ("NEW".data)
          ([("xx".data)] ++ ("sec one".data) :: [("sec two".data)])
        = ([("xx".data)] ++ ("NEW".data ++ ['\n']) :: ("sec one".data) :: [("sec two".data)],
           true)) :=
  ⟨by decide, by decide,
   insert_directive_first_match_only ("sec".data) ("NEW".data)
     [("xx".data)] ("sec one".data) [("sec two".data)]
     (by decide) (by decide)⟩

theorem applyDirective_delete (st : List (List Char) × Bool) (p : DocPatch)
    (hact : p.action = some ("DELETE".data)) :
    applyDirective st p = st := by
  obtain ⟨sid, act, cont⟩ := p
  simp only at hact
  subst hact
  cases sid with
  | none => rfl
  | some sec =>
      rw [show applyDirective st ⟨some sec, some ("DELETE".data), cont⟩
          = (if "DELETE".data = "REPLACE".data then
              ((replaceStep st.1 sec (joinNl cont)).1,
               st.2 || (replaceStep st.1 sec (joinNl cont)).2)
            else if "DELETE".data = "INSERT_AFTER".data then
              ((insertAfterStep sec (joinNl cont) st.1).1,
               st.2 || (insertAfterStep sec (joinNl cont) st.1).2)
            else if "DELETE".data = "INSERT_BEFORE".data then
              ((insertBeforeStep sec (joinNl cont) st.1).1,
               st.2 || (insertBeforeStep sec (joinNl cont) st.1).2)
            else st) from rfl]
      rw [if_neg (by decide), if_neg (by decide), if_neg (by decide)]

theorem foldl_applyDirective_delete (patches : List DocPatch) :
    ∀ (st : List (List Char) × Bool),
      (∀ p ∈ patches, p.action = some ("DELETE".data)) →
      patches.foldl applyDirective st = st := by
  induction patches with
  | nil => intro st hall; rfl
  | cons p rest ih =>
      intro st hall
      rw [List.foldl_cons, applyDirective_delete st p (hall p (List.mem_cons_self _ _))]
      exact ih st (fun q hq => hall q (List.mem_cons_of_mem _ hq))

/-- C8: a DELETE directive has no effect on the file content, and
apply_doc_patches rewrites the target file exactly when some directive
produced a change: a patch set of DELETE directives only leaves the file
untouched and returns False, and whenever the call returns False the
file content is unchanged. -/
theorem delete_directive_no_effect_no_write :
    (∀ (st : List (List Char) × Bool) (sec : List Char) (content : List (List Char)),
      applyDirective st ⟨some sec, some ("DELETE".data), content⟩ = st)
    ∧ (∀ (lines : List (List Char)) (patches : List DocPatch),
        (∀ p ∈ patches, p.action = some ("DELETE".data)) →
        apply_doc_patches lines patches = (lines, false))
    ∧ (∀ (lines : List (List Char)) (patches : List DocPatch),
        (apply_doc_patches lines patches).2 = false →
        (apply_doc_patches lines patches).1 = lines) := by
  refine ⟨?_, ?_, ?_⟩
  · intro st sec content
    exact applyDirective_delete st ⟨some sec, some ("DELETE".data), content⟩ rfl
  · intro lines patches hall
    unfold apply_doc_patches
    rw [foldl_applyDirective_delete patches (lines, false) hall]
    rfl
  · intro lines patches
    unfold apply_doc_patches
    cases hm : (patches.foldl applyDirective (lines, false)).2 with
    | false => intro hsnd; rfl
    | true => intro hsnd; simp at hsnd

/-- Witness: a single DELETE directive over a one-line file; the file is
untouched and the call reports no change. -/
theorem delete_directive_no_effect_no_write_witness :
    (∀ p ∈ [DocPatch.mk (some ("Intro".data)) (some ("DELETE".data)) []],
        p.action = some ("DELETE".data))
    ∧ apply_doc_patches [("line one".data)]
        [⟨some ("Intro".data), some ("DELETE".data), []⟩]
      = ([("line one".data)], false) :=
  ⟨by decide,
   delete_directive_no_effect_no_write.2.1 [("line one".data)]
     [⟨some ("Intro".data), some ("DELETE".data), []⟩] (by decide)⟩

/-- C5: whenever the model reply to the documentation-suggestion request
is not parseable as JSON, suggest_doc_updates returns (does not raise)
the empty suggestion set, consisting of empty updates and suggestions
lists, together with the warning. -/
theorem suggest_doc_updates_parse_failure_empty (jsonLoads : String → Option JVal)
    (providerName response : String) (hparse : jsonLoads response = none) :
    suggest_doc_updates jsonLoads providerName (Except.ok response)
      = Except.ok (emptySuggestions, true) := by
  rw [show suggest_doc_updates jsonLoads providerName (Except.ok response)
      = (match jsonLoads response with
         | some j => Except.ok (j, false)
         | none => Except.ok (emptySuggestions, true)) from rfl, hparse]

/-- Witness: a reply that no decoder accepts yields the empty suggestion
set with a warning. -/
theorem suggest_doc_updates_parse_failure_empty_witness :
    (fun (_ : String) => (none : Option JVal)) "not a json reply" = none
    ∧ suggest_doc_updates (fun _ => none) "OpenRouter" (Except.ok "not a json reply")
      = Except.ok (emptySuggestions, true) :=
  ⟨rfl, suggest_doc_updates_parse_failure_empty (fun _ => none) "OpenRouter"
    "not a json reply" rfl⟩

theorem dropWhile_head_not (p : Char → Bool) :
    ∀ (l : List Char) (c : Char), (List.dropWhile p l).head? = some c → p c = false := by
  intro l
  induction l with
  | nil => intro c hc; cases hc
  | cons a rest ih =>
      intro c hc
      by_cases hp : p a = true
      · rw [List.dropWhile_cons_of_pos hp] at hc
        exact ih c hc
      · have hp' : p a = false := Bool.eq_false_iff.mpr hp
        rw [List.dropWhile_cons_of_neg (by rw [hp']; exact Bool.false_ne_true)] at hc
        injection hc with hc
        exact hc ▸ hp'

theorem dropWhile_getLast_not (p : Char → Bool) (m : List Char) (c : Char)
    (hc : (List.dropWhile p m).getLast? = some c) :
    (List.dropWhile p m).getLast? = m.getLast? := by
  obtain ⟨t, ht⟩ : ∃ t, t ++ List.dropWhile p m = m := ⟨List.takeWhile p m,
    List.takeWhile_append_dropWhile p m⟩
  have hne : List.dropWhile p m ≠ [] := by
    intro hnil
    rw [hnil] at hc
    cases hc
  calc (List.dropWhile p m).getLast?
      = (t ++ List.dropWhile p m).getLast? :=
        (List.getLast?_append_of_ne_nil t hne).symm
    _ = m.getLast? := by rw [ht]

/-- C9: generate_commit_message returns the model's textual reply with
leading and trailing whitespace trimmed (the returned message neither
starts nor ends with a whitespace character), and every transport or API
failure propagates to the caller as an error naming the failing provider
and the triggering exception, with no retry. -/
theorem generate_commit_message_trim_and_propagate (providerName reply e : String) :
    (generate_commit_message providerName (Except.ok reply) = Except.ok (pyStrip reply)
      ∧ (∀ c, (pyStrip reply).data.head? = some c → isPySpace c = false)
      ∧ (∀ c, (pyStrip reply).data.getLast? = some c → isPySpace c = false))
    ∧ generate_commit_message providerName (Except.error e)
      = Except.error ("LLM API call failed for " ++ providerName ++ ": " ++ e) := by
  refine ⟨⟨rfl, ?_, ?_⟩, rfl⟩
  · intro c hc
    have hdata : (pyStrip reply).data
        = ((reply.data.dropWhile isPySpace).reverse.dropWhile isPySpace).reverse := rfl
    rw [hdata, List.head?_reverse] at hc
    have hlast := dropWhile_getLast_not isPySpace (reply.data.dropWhile isPySpace).reverse c hc
    rw [hlast, List.getLast?_reverse] at hc
    exact dropWhile_head_not isPySpace (reply.data) c hc
  · intro c hc
    have hdata : (pyStrip reply).data
        = ((reply.data.dropWhile isPySpace).reverse.dropWhile isPySpace).reverse := rfl
    rw [hdata, List.getLast?_reverse] at hc
    exact dropWhile_head_not isPySpace _ c hc

/-- Witness: a reply padded with whitespace is trimmed, and a transport
failure surfaces as the provider-naming error. -/
theorem generate_commit_message_trim_and_propagate_witness :
    ((generate_commit_message "OpenRouter" (Except.ok "  feat: add parser\n")
        = Except.ok (pyStrip "  feat: add parser\n")
      ∧ (∀ c, (pyStrip "  feat: add parser\n").data.head? = some c → isPySpace c = false)
      ∧ (∀ c, (pyStrip "  feat: add parser\n").data.getLast? = some c → isPySpace c = false))
    ∧ generate_commit_message "OpenRouter" (Except.error "timeout")
      = Except.error ("LLM API call failed for " ++ "OpenRouter" ++ ": " ++ "timeout"))
    ∧ pyStrip "  feat: add parser\n" = "feat: add parser" :=
  ⟨generate_commit_message_trim_and_propagate "OpenRouter" "  feat: add parser\n" "timeout",
   by decide⟩
